import Mathlib

/-!
Verification of the `rule_convergence` toolkit against its specification.

Python strings are embedded as `List Char`; dictionaries as association
lists (first match wins, matching CPython's unique-key dicts); fallible
operations return `Option` or `Except String`.  The source files embedded
here are `zdd_binary_to_text.py`, `summarize_agreement.py`,
`tools/zdd_to_csv_correct.py`, `analyze_evaluations.py` and
`batch_evaluation_manager.py`.
-/

namespace RuleConvergence

/-! ### Decimal rendering of integers (Python `str` on `int`) -/

/-- The character for a decimal digit `d < 10` (codepoint 48 + d). -/
def digitChar (d : Nat) : Char := Char.ofNat (48 + d)

/-- Numeric value of a digit character. -/
def digitVal (c : Char) : Nat := c.toNat - 48

/-- `true` iff `c` is an ASCII decimal digit. -/
def isDigitChar (c : Char) : Bool := 48 ≤ c.toNat && c.toNat ≤ 57

/-- Digit extraction with explicit fuel; the fuel is structural so that
concrete renderings reduce inside the kernel.  `natToChars` supplies
enough fuel for every input. -/
def natToCharsAux : Nat → Nat → List Char
  | 0, _ => []
  | fuel + 1, n =>
    if n < 10 then [digitChar n]
    else natToCharsAux fuel (n / 10) ++ [digitChar (n % 10)]

/-- Decimal digits of a natural number, most significant first,
as produced by Python `str` on a non-negative `int`. -/
def natToChars (n : Nat) : List Char := natToCharsAux (n + 1) n

/-- Python `str` on an `int`: a minus sign followed by the digits of the
absolute value when negative, plain digits otherwise. -/
def intToChars (i : Int) : List Char :=
  if i < 0 then '-' :: natToChars i.natAbs else natToChars i.toNat

/-! ### Decimal parsing (Python `int` on `str`) -/

/-- Value of a digit string read left to right (the accumulator pass that
Python `int` performs on a validated digit sequence). -/
def charsToNat (ds : List Char) : Nat :=
  ds.foldl (fun a c => a * 10 + digitVal c) 0

/-- Python `int(s)` on an already-stripped string: an optional sign
followed by at least one decimal digit; anything else raises, which the
embedding reports as `none`. -/
def pyIntOfChars (s : List Char) : Option Int :=
  match s with
  | [] => none
  | c :: rest =>
    if c = '-' then
      if rest ≠ [] ∧ rest.all isDigitChar then some (-(charsToNat rest : Int)) else none
    else if c = '+' then
      if rest ≠ [] ∧ rest.all isDigitChar then some ((charsToNat rest : Int)) else none
    else
      if (c :: rest).all isDigitChar then some ((charsToNat (c :: rest) : Int)) else none

/-! ### Python string primitives used by the sources -/

/-- Python whitespace characters stripped by `str.strip()`. -/
def isPySpace (c : Char) : Bool :=
  c = ' ' || c = '\t' || c = '\n' || c = '\r' || c = '\x0b' || c = '\x0c'

/-- Python `s.strip(chars)`: remove from both ends every character that
belongs to `cs`. -/
def stripSet (cs : List Char) (s : List Char) : List Char :=
  ((s.dropWhile (fun c => c ∈ cs)).reverse.dropWhile (fun c => c ∈ cs)).reverse

/-- Python `s.strip()`: remove whitespace from both ends. -/
def pyStrip (s : List Char) : List Char :=
  ((s.dropWhile isPySpace).reverse.dropWhile isPySpace).reverse

/-- Python `s.split(sep)` for a one-character separator: split at every
occurrence, keeping empty pieces, so `n` separators yield `n + 1` pieces. -/
def splitOnChar (sep : Char) : List Char → List (List Char)
  | [] => [[]]
  | c :: rest =>
    if c = sep then [] :: splitOnChar sep rest
    else
      match splitOnChar sep rest with
      | [] => [[c]]
      | p :: ps => (c :: p) :: ps

/-! ### `summarize_agreement.parse_assignment` -/

/-- `parse_assignment` from `summarize_agreement.py`: strip the bracket
characters from both ends, return `[]` for an empty remainder, otherwise
split on commas and convert each stripped piece with `int`.  A piece that
`int` rejects raises in Python, reported here as `none`. -/
def parse_assignment (s : List Char) : Option (List Int) :=
  let clean := stripSet ['[', ']'] s
  if clean = [] then some []
  else (splitOnChar ',' clean).mapM (fun x => pyIntOfChars (pyStrip x))

/-! ### `ZDDBinaryToTextConverter._write_arrays_to_text` -/

/-- Python `sep.join(pieces)`. -/
def pyJoin (sep : List Char) : List (List Char) → List Char
  | [] => []
  | [p] => p
  | p :: ps => p ++ sep ++ pyJoin sep ps

/-- One array rendered as `[v1,v2,...]`, exactly the f-string
`"[" + ",".join(map(str, array)) + "]"` used by the converter. -/
def renderArray (a : List Int) : List Char :=
  '[' :: (pyJoin [','] (a.map intToChars)) ++ [']']

/-- `_write_arrays_to_text`: the character content written to the output
file, each rendered array followed by a newline. -/
def writeArraysToTextContent (arrays : List (List Int)) : List Char :=
  arrays.foldl (fun acc array => acc ++ renderArray array ++ ['\n']) []

/-- The lines of a text, Python `str.splitlines` on newline-separated
text: split on newlines and drop the final empty piece left by a trailing
newline. -/
def splitLines (s : List Char) : List (List Char) :=
  let ps := splitOnChar '\n' s
  if ps.getLast? = some [] then ps.dropLast else ps

/-! ### The decoded ZDD structure -/

/-- The decoded result exposed by `ZDDParser.load`: a magic number and an
ordered sequence of integer arrays. -/
structure ZDDStructure where
  magic_number : Int
  arrays : List (List Int)
deriving DecidableEq

/-- First-match association-list lookup, the dictionary access of the
embedded Python code. -/
def lookupKey {α β : Type} [DecidableEq α] : List (α × β) → α → Option β
  | [], _ => none
  | e :: rest, k => if e.1 = k then some e.2 else lookupKey rest k

/-! ### The binary reader, modelled from the spec -/

/-- Modelled from the spec: reads `k` integers from the stream, failing when
the stream is truncated (`zdd_parser` is consumed by the converters but its
source is not among the supplied files; sections 4.1 and 6 fix its
contract). -/
def readInts : Nat → List Int → Option (List Int × List Int)
  | 0, s => some ([], s)
  | _ + 1, [] => none
  | k + 1, x :: s => do
    let (xs, rest) ← readInts k s
    return (x :: xs, rest)

/-- Modelled from the spec: reads `n` variable-length arrays, each preceded
by its length; a negative length or truncation is a decoding error. -/
def readArrays : Nat → List Int → Option (List (List Int) × List Int)
  | 0, s => some ([], s)
  | n + 1, s =>
    match s with
    | [] => none
    | len :: s1 =>
      if len < 0 then none
      else do
        let (arr, s2) ← readInts len.toNat s1
        let (rest, s3) ← readArrays n s2
        return (arr :: rest, s3)

/-- Modelled from the spec: `ZDDParser.load` decodes the header — a magic
number and an array count — and then reads exactly the declared number of
arrays; a missing header, a negative count, or truncation fails. -/
def ZDDParser.load (stream : List Int) : Option ZDDStructure :=
  match stream with
  | magic :: count :: rest =>
    if count < 0 then none
    else do
      let (arrays, _) ← readArrays count.toNat rest
      return { magic_number := magic, arrays := arrays }
  | _ => none

/-! ### `tools/zdd_to_csv_correct.py` -/

/-- The `thesis_mapping` dictionary of `CorrectZDDAnalyzer`. -/
def thesis_mapping (zdd_id : Nat) : Option (List Char) :=
  match zdd_id with
  | 1 => some "2020418".toList
  | 2 => some "2021246".toList
  | 3 => some "2021398".toList
  | 4 => some "2021537".toList
  | 5 => some "2023487".toList
  | 6 => some "2025237".toList
  | 7 => some "2025433".toList
  | 8 => some "2029251".toList
  | 9 => some "2030499".toList
  | 10 => some "2030500".toList
  | 11 => some "2030717".toList
  | _ => none

/-- `self.thesis_mapping.get(zdd_id, f"unknown_{zdd_id}")`. -/
def thesisNumber (zdd_id : Nat) : List Char :=
  (thesis_mapping zdd_id).getD ("unknown_".toList ++ natToChars zdd_id)

/-- Python `sorted` on a list of integers (`sorted` is a stable sort, and
so is insertion sort, so the two agree as functions). -/
def sortInts (a : List Int) : List Int := a.insertionSort (· ≤ ·)

/-- Iteration over `sorted(self.zdds.keys())` with `self.zdds[zdd_id]`:
the association pairs in ascending key order. -/
def sortByKey (zdds : List (Nat × ZDDStructure)) : List (Nat × ZDDStructure) :=
  zdds.insertionSort (fun a b => a.1 ≤ b.1)

/-- One data row of `generate_complete_csv` (one row per array element). -/
structure CompleteRow where
  zdd_id : Nat
  thesis_number : List Char
  magic_number : Int
  array_index : Nat
  array_length : Nat
  array_elements : List Char
  array_signature_sorted : List Char
  element_position : Nat
  element_value : Int
deriving DecidableEq

/-- The data rows written by `generate_complete_csv`: for each structure in
ascending `zdd_id` order, for each array, one row per element. -/
def completeRows (zdds : List (Nat × ZDDStructure)) : List CompleteRow :=
  (sortByKey zdds).flatMap (fun p =>
    (p.2.arrays.enum).flatMap (fun q =>
      (q.2.enum).map (fun r =>
        { zdd_id := p.1
          thesis_number := thesisNumber p.1
          magic_number := p.2.magic_number
          array_index := q.1
          array_length := q.2.length
          array_elements := renderArray q.2
          array_signature_sorted := renderArray (sortInts q.2)
          element_position := r.1
          element_value := r.2 })))

/-- One data row of `generate_array_summary_csv` (one row per array). -/
structure SummaryRow where
  zdd_id : Nat
  thesis_number : List Char
  magic_number : Int
  array_index : Nat
  array_length : Nat
  array_elements : List Char
  array_signature_sorted : List Char
  unique_elements : Nat
  min_element : Int
  max_element : Int
deriving DecidableEq

/-- Python builtin `min` on a list, which raises on an empty sequence. -/
def pyMin (a : List Int) : Except String Int :=
  match a with
  | [] => .error "min() arg is an empty sequence"
  | x :: xs => .ok (xs.foldl min x)

/-- Python builtin `max` on a list, which raises on an empty sequence. -/
def pyMax (a : List Int) : Except String Int :=
  match a with
  | [] => .error "max() arg is an empty sequence"
  | x :: xs => .ok (xs.foldl max x)

/-- One row of `generate_array_summary_csv` for the array `q.2` at index
`q.1`: `min_element = min(array) if array else 0`, likewise for `max`,
`unique_elements = len(set(array))`. -/
def summaryRowOf (zdd_id : Nat) (magic : Int) (q : Nat × List Int) :
    Except String SummaryRow := do
  let minE ← if q.2 = [] then pure 0 else pyMin q.2
  let maxE ← if q.2 = [] then pure 0 else pyMax q.2
  return { zdd_id := zdd_id
           thesis_number := thesisNumber zdd_id
           magic_number := magic
           array_index := q.1
           array_length := q.2.length
           array_elements := renderArray q.2
           array_signature_sorted := renderArray (sortInts q.2)
           unique_elements := q.2.dedup.length
           min_element := minE
           max_element := maxE }

/-- The data rows written by `generate_array_summary_csv`, in ascending
`zdd_id` order, one row per array. -/
def summaryRows (zdds : List (Nat × ZDDStructure)) : Except String (List SummaryRow) := do
  let rowss ← (sortByKey zdds).mapM
    (fun p => (p.2.arrays.enum).mapM (summaryRowOf p.1 p.2.magic_number))
  return rowss.flatten

/-- Closed form of the summary row: the value `summaryRowOf` succeeds with
(the `match` is `min(array) if array else 0`, and likewise for `max`). -/
def summaryRowPure (zdd_id : Nat) (magic : Int) (q : Nat × List Int) : SummaryRow :=
  { zdd_id := zdd_id
    thesis_number := thesisNumber zdd_id
    magic_number := magic
    array_index := q.1
    array_length := q.2.length
    array_elements := renderArray q.2
    array_signature_sorted := renderArray (sortInts q.2)
    unique_elements := q.2.dedup.length
    min_element := match q.2 with | [] => 0 | x :: xs => xs.foldl min x
    max_element := match q.2 with | [] => 0 | x :: xs => xs.foldl max x }

/-- Closed form of the full summary-row list. -/
def summaryRowsPure (zdds : List (Nat × ZDDStructure)) : List SummaryRow :=
  (sortByKey zdds).flatMap
    (fun p => (p.2.arrays.enum).map (summaryRowPure p.1 p.2.magic_number))

/-- Appending one occurrence under its pattern key, the effect of
`pattern_occurrences[pattern].append((zdd_id, array_idx))` on a
`defaultdict(list)` in insertion order. -/
def addOcc (m : List (List Int × List (Nat × Nat))) (key : List Int) (v : Nat × Nat) :
    List (List Int × List (Nat × Nat)) :=
  match m with
  | [] => [(key, [v])]
  | e :: rest => if e.1 = key then (e.1, e.2 ++ [v]) :: rest else e :: addOcc rest key v

/-- The `pattern_occurrences` table of `generate_pattern_analysis_csv`: the
canonical (sorted) pattern of every array of every structure, mapped to its
`(zdd_id, array_index)` occurrences. -/
def patternOccurrences (zdds : List (Nat × ZDDStructure)) :
    List (List Int × List (Nat × Nat)) :=
  zdds.foldl
    (fun m p => (p.2.arrays.enum).foldl (fun m2 q => addOcc m2 (sortInts q.2) (p.1, q.1)) m)
    []

/-- Python `min` on a list of naturals; the `0` default is unreachable in
this development because every pattern-table entry holds at least one
occurrence (Python would raise there). -/
def pyMinNatD (l : List Nat) : Nat :=
  match l with
  | [] => 0
  | x :: xs => xs.foldl min x

/-- Python `sorted` on a list of naturals. -/
def sortNats (l : List Nat) : List Nat := l.insertionSort (· ≤ ·)

/-- One data row of `generate_pattern_analysis_csv`. -/
structure PatternRow where
  array_signature : List Char
  frequency_across_zdds : Nat
  zdd_occurrences : List Char
  first_seen_zdd : Nat
  array_length : Nat
  unique_elements : Nat
deriving DecidableEq

/-- The row emitted for one pattern-table entry. -/
def patternRowOf (e : List Int × List (Nat × Nat)) : PatternRow :=
  let uniqueZdds := sortNats (e.2.map Prod.fst).dedup
  { array_signature := renderArray e.1
    frequency_across_zdds := e.2.length
    zdd_occurrences := pyJoin [','] (uniqueZdds.map natToChars)
    first_seen_zdd := pyMinNatD uniqueZdds
    array_length := e.1.length
    unique_elements := e.1.dedup.length }

/-- The data rows written by `generate_pattern_analysis_csv`: the table
entries sorted by descending occurrence count, rendered one row each. -/
def patternRows (zdds : List (Nat × ZDDStructure)) : List PatternRow :=
  (((patternOccurrences zdds).insertionSort (fun a b => b.2.length ≤ a.2.length)).map
    patternRowOf)

/-! ### Converter control flow (`zdd_binary_to_text.py`) -/

/-- The file system visible to the converter: the binary files that exist,
each with the structure `ZDDParser.load` decodes from it (paths stand for
the file names). -/
structure FileSys where
  files : List (List Char × ZDDStructure)

/-- `convert_binary_to_text`: raises `FileNotFoundError` when the input
does not exist, otherwise parses it and writes the text form of its
arrays. -/
def convert_binary_to_text (fs : FileSys) (path : List Char) :
    Except (List Char) (List Char) :=
  match lookupKey fs.files path with
  | none => .error ("Binary ZDD file not found: ".toList ++ path)
  | some st => .ok (writeArraysToTextContent st.arrays)

/-- The block `convert_multiple_binary_files` writes for the `i`-th input
file: comment header, one line per array, comment trailer. -/
def zddBlock (i : Nat) (name : List Char) (st : ZDDStructure) : List Char :=
  "# ZDD ".toList ++ natToChars (i + 1) ++ ": ".toList ++ name ++ ['\n'] ++
  "# Magic: ".toList ++ intToChars st.magic_number ++ ['\n'] ++
  "# Arrays: ".toList ++ natToChars st.arrays.length ++ ['\n'] ++
  "#\n".toList ++
  writeArraysToTextContent st.arrays ++
  "#\n".toList ++ "# End of ZDD ".toList ++ natToChars (i + 1) ++ ['\n'] ++ "#\n".toList

/-- `convert_multiple_binary_files`: raises on an empty input list; a
missing input file is logged as a warning and skipped (`continue`), every
existing file contributes its block to the single output. -/
def convert_multiple_binary_files (fs : FileSys) (paths : List (List Char)) :
    Except (List Char) (List Char) :=
  if paths = [] then .error "No binary ZDD files provided".toList
  else .ok ((paths.enum).foldl (fun acc q =>
    match lookupKey fs.files q.2 with
    | none => acc
    | some st => acc ++ zddBlock q.1 q.2 st) [])

/-- The `__main__` handler around single-file conversion: any exception is
printed and the process exits with status 1, success exits 0. -/
def mainExitSingle (fs : FileSys) (path : List Char) : Nat :=
  match convert_binary_to_text fs path with
  | .ok _ => 0
  | .error _ => 1

/-- The `__main__` handler around multi-file conversion. -/
def mainExitMultiple (fs : FileSys) (paths : List (List Char)) : Nat :=
  match convert_multiple_binary_files fs paths with
  | .ok _ => 0
  | .error _ => 1

/-! ### `analyze_evaluations.compute_cohens_kappa` -/

/-- One clause evaluation record as loaded by `load_batch_evaluations`. -/
structure ClauseEval where
  rating : String
  justification : String
  thesis_id : String
  thesis_title : String
deriving DecidableEq

/-- The loop body of `compute_cohens_kappa` for one common clause id: the
two ratings are appended exactly when both are non-empty (`if r1 and r2`). -/
def ratingPairAt (e1 e2 : List (String × ClauseEval)) (cid : String) :
    Option (String × String) :=
  match lookupKey e1 cid, lookupKey e2 cid with
  | some c1, some c2 =>
    if c1.rating ≠ "" ∧ c2.rating ≠ "" then some (c1.rating, c2.rating) else none
  | _, _ => none

/-- `compute_cohens_kappa`: intersect the two evaluations' clause ids, walk
them in sorted order, and collect the rating pairs where both ratings are
non-empty.  The Python function returns `(None, [], [])` when either the
intersection or the collected pairs are empty, and otherwise
`(cohen_kappa_score(ratings1, ratings2), ratings1, ratings2)`; the numeric
kappa is delegated to `sklearn` and abstracted away here, so the embedding
returns the two rating lists, with `none` standing for `(None, [], [])`. -/
def compute_cohens_kappa (e1 e2 : List (String × ClauseEval)) :
    Option (List String × List String) :=
  let common := ((e1.map Prod.fst).filter (fun k => (e2.map Prod.fst).contains k)).dedup
  if common = [] then none
  else
    let pairs := (common.insertionSort (· ≤ ·)).filterMap (ratingPairAt e1 e2)
    if pairs = [] then none else some (pairs.map Prod.fst, pairs.map Prod.snd)

/-- A clause id rated by both evaluators with non-empty ratings. -/
def commonlyRated (e1 e2 : List (String × ClauseEval)) (cid : String) : Prop :=
  ∃ c1 c2, lookupKey e1 cid = some c1 ∧ lookupKey e2 cid = some c2 ∧
    c1.rating ≠ "" ∧ c2.rating ≠ ""

/-- The rating an evaluation assigns to a clause id (empty if absent). -/
def ratingOf (e : List (String × ClauseEval)) (cid : String) : String :=
  ((lookupKey e cid).map ClauseEval.rating).getD ""

/-! ### `batch_evaluation_manager.py` -/

/-- One entry of `batch_index.json`. -/
structure BatchEntry where
  batch_number : Nat
  thesis_ids : List Nat
  status : List (String × String)
deriving DecidableEq

/-- The batch index loaded by `BatchEvaluationManager.load_index`. -/
structure BatchIndex where
  total_batches : Nat
  total_theses : Nat
  batches : List BatchEntry
deriving DecidableEq

/-- Python dictionary assignment `status[evaluator_name] = value`: replace
the value at an existing key in place, or append a new key. -/
def setStatus (st : List (String × String)) (ev val : String) : List (String × String) :=
  match st with
  | [] => [(ev, val)]
  | e :: rest => if e.1 = ev then (e.1, val) :: rest else e :: setStatus rest ev val

/-- The index-update loop of `save_batch`: mark the first entry whose
`batch_number` matches as completed for the evaluator, then `break`. -/
def updateFirstMatch : List BatchEntry → Nat → String → List BatchEntry
  | [], _, _ => []
  | b :: rest, n, ev =>
    if b.batch_number = n then
      { b with status := setStatus b.status ev "completed" } :: rest
    else b :: updateFirstMatch rest n ev

/-- The effect of `save_batch` on the batch index (the JSON file written
next to it is out of scope): update the saved batch's status and keep
everything else. -/
def save_batch_index (idx : BatchIndex) (batch_num : Nat) (ev : String) : BatchIndex :=
  { idx with batches := updateFirstMatch idx.batches batch_num ev }

/-! ## Helper lemmas -/

theorem readInts_length : ∀ (k : Nat) (s arr rest : List Int),
    readInts k s = some (arr, rest) → arr.length = k := by
  intro k
  induction k with
  | zero =>
    intro s arr rest h
    simp [readInts] at h
    simp [h.1]
  | succ k ih =>
    intro s arr rest h
    match s with
    | [] => simp [readInts] at h
    | x :: s2 =>
      cases hr : readInts k s2 with
      | none => simp [readInts, hr] at h
      | some p =>
        simp [readInts, hr] at h
        obtain ⟨h1, h2⟩ := h
        simp [← h1, ih s2 p.1 p.2 (by simpa using hr)]

theorem readArrays_length : ∀ (n : Nat) (s : List Int) (arrs : List (List Int))
    (rest : List Int), readArrays n s = some (arrs, rest) → arrs.length = n := by
  intro n
  induction n with
  | zero =>
    intro s arrs rest h
    simp [readArrays] at h
    simp [h.1]
  | succ n ih =>
    intro s arrs rest h
    match s with
    | [] => simp [readArrays] at h
    | len :: s1 =>
      by_cases hneg : len < 0
      · simp [readArrays, hneg] at h
      · cases h1 : readInts len.toNat s1 with
        | none => simp [readArrays, hneg, h1] at h
        | some p =>
          cases h2 : readArrays n p.2 with
          | none => simp [readArrays, hneg, h1, h2] at h
          | some q =>
            simp [readArrays, hneg, h1, h2] at h
            obtain ⟨ha, hb⟩ := h
            simp [← ha, ih p.2 q.1 q.2 (by simpa using h2)]

theorem except_bind_ok {ε α β : Type} (x : Except ε α) (f : α → Except ε β) (b : β) :
    (x >>= f) = Except.ok b ↔ ∃ a, x = Except.ok a ∧ f a = Except.ok b := by
  cases x <;> simp [Bind.bind, Except.bind]

theorem summaryRowOf_eq (zdd_id : Nat) (magic : Int) (q : Nat × List Int) :
    summaryRowOf zdd_id magic q = Except.ok (summaryRowPure zdd_id magic q) := by
  obtain ⟨i, a⟩ := q
  cases a <;> rfl

theorem mapM_eq_map_of_ok {α β : Type} (f : α → Except String β) (g : α → β) :
    ∀ l : List α, (∀ a ∈ l, f a = Except.ok (g a)) →
      l.mapM f = Except.ok (l.map g) := by
  intro l
  induction l with
  | nil => intro _; rfl
  | cons a l ih =>
    intro h
    rw [List.mapM_cons, List.map_cons]
    rw [h a (by simp), ih (fun x hx => h x (by simp [hx]))]
    rfl

theorem summaryRows_eq (zdds : List (Nat × ZDDStructure)) :
    summaryRows zdds = Except.ok (summaryRowsPure zdds) := by
  unfold summaryRows summaryRowsPure
  rw [mapM_eq_map_of_ok _
    (fun p => (p.2.arrays.enum).map (summaryRowPure p.1 p.2.magic_number))
    _ (fun p _ => mapM_eq_map_of_ok _ _ _ (fun q _ => summaryRowOf_eq p.1 p.2.magic_number q))]
  simp [List.flatMap]


theorem setStatus_lookup_self : ∀ (st : List (String × String)) (ev val : String),
    lookupKey (setStatus st ev val) ev = some val := by
  intro st ev val
  induction st with
  | nil => simp [setStatus, lookupKey]
  | cons e rest ih =>
    by_cases h : e.1 = ev
    · simp [setStatus, h, lookupKey]
    · simp [setStatus, h, lookupKey, ih]

theorem setStatus_lookup_other : ∀ (st : List (String × String)) (ev val k : String),
    k ≠ ev → lookupKey (setStatus st ev val) k = lookupKey st k := by
  intro st ev val k hk
  induction st with
  | nil =>
    simp only [setStatus, lookupKey]
    simp [Ne.symm hk]
  | cons e rest ih =>
    by_cases h : e.1 = ev
    · by_cases h2 : e.1 = k
      · exact absurd (h2.symm.trans h) hk
      · rw [h] at h2
        simp [setStatus, h, lookupKey, h2]
    · by_cases h2 : e.1 = k
      · simp [setStatus, h, lookupKey, h2, hk]
      · simp [setStatus, h, lookupKey, h2, ih]

theorem updateFirstMatch_get (n : Nat) (ev : String) :
    ∀ (l : List BatchEntry), (l.map BatchEntry.batch_number).Nodup →
      ∀ (i : Nat) (b : BatchEntry), l[i]? = some b →
        (updateFirstMatch l n ev)[i]? =
          some (if b.batch_number = n then
            { b with status := setStatus b.status ev "completed" } else b) := by
  intro l
  induction l with
  | nil => intro _ i b h; simp at h
  | cons b0 rest ih =>
    intro hnd i b h
    simp only [List.map_cons, List.nodup_cons] at hnd
    by_cases h0 : b0.batch_number = n
    · match i with
      | 0 =>
        simp at h
        simp [updateFirstMatch, h0, ← h]
      | i + 1 =>
        simp at h
        have hmem : b ∈ rest := List.getElem?_mem h
        have hb : b.batch_number ≠ n := by
          intro hc
          exact hnd.1 (by
            rw [h0, ← hc]
            exact List.mem_map_of_mem BatchEntry.batch_number hmem)
        simp [updateFirstMatch, h0, h, hb]
    · match i with
      | 0 =>
        simp at h
        simp [updateFirstMatch, h0, ← h]
      | i + 1 =>
        simp at h
        simp [updateFirstMatch, h0, ih hnd.2 i b h]

/-! ## Claim theorems -/

/-- C6: for every valid binary input accepted by `ZDDParser.load`, the
number of arrays in the returned structure equals the array count declared
in the file's header (spec-modelled reader). -/
theorem load_array_count_eq_header (magic count : Int) (rest : List Int)
    (st : ZDDStructure) (h : ZDDParser.load (magic :: count :: rest) = some st) :
    st.arrays.length = count.toNat := by
  by_cases hneg : count < 0
  · simp [ZDDParser.load, hneg] at h
  · cases h1 : readArrays count.toNat rest with
    | none => simp [ZDDParser.load, hneg, h1] at h
    | some p =>
      simp [ZDDParser.load, hneg, h1] at h
      rw [← h]
      exact readArrays_length count.toNat rest p.1 p.2 (by simpa using h1)

/-- Witness for C6: a concrete stream declaring two arrays decodes to a
structure with two arrays. -/
theorem load_array_count_eq_header_witness :
    ZDDParser.load [7, 2, 0, 1, 5] = some ⟨7, [[], [5]]⟩ ∧
    (ZDDStructure.mk 7 [[], [5]]).arrays.length = (2 : Int).toNat :=
  ⟨by decide, load_array_count_eq_header 7 2 [0, 1, 5] ⟨7, [[], [5]]⟩ (by decide)⟩

/-- C9: `generate_array_summary_csv` never fails on a zero-length array —
the summary rows always compute without error, and the row of an empty
array reports `min_element = 0`, `max_element = 0` and
`unique_elements = 0` instead of raising on `min`/`max` of an empty
sequence. -/
theorem summary_rows_total_and_empty_defaults :
    (∀ zdds : List (Nat × ZDDStructure), ∃ rows, summaryRows zdds = Except.ok rows) ∧
    (∀ (zdd_id : Nat) (magic : Int) (i : Nat),
      summaryRowOf zdd_id magic (i, ([] : List Int)) =
        Except.ok
          { zdd_id := zdd_id
            thesis_number := thesisNumber zdd_id
            magic_number := magic
            array_index := i
            array_length := 0
            array_elements := ['[', ']']
            array_signature_sorted := ['[', ']']
            unique_elements := 0
            min_element := 0
            max_element := 0 }) := by
  constructor
  · intro zdds
    exact ⟨summaryRowsPure zdds, summaryRows_eq zdds⟩
  · intro zdd_id magic i
    rw [summaryRowOf_eq]
    rfl

/-- C7: the per-element CSV contains one data row per element of each array
of each loaded structure — its data-row count is the sum of all array
lengths — and the per-array summary CSV contains exactly one data row per
array. -/
theorem csv_row_counts (zdds : List (Nat × ZDDStructure)) :
    (completeRows zdds).length =
      (zdds.map (fun p => (p.2.arrays.map List.length).sum)).sum ∧
    ∃ rows, summaryRows zdds = Except.ok rows ∧
      rows.length = (zdds.map (fun p => p.2.arrays.length)).sum := by
  constructor
  · unfold completeRows
    rw [List.length_flatMap]
    have hinner : ∀ p : Nat × ZDDStructure,
        ((p.2.arrays.enum).flatMap
          (fun q => (q.2.enum).map (fun r =>
            ({ zdd_id := p.1
               thesis_number := thesisNumber p.1
               magic_number := p.2.magic_number
               array_index := q.1
               array_length := q.2.length
               array_elements := renderArray q.2
               array_signature_sorted := renderArray (sortInts q.2)
               element_position := r.1
               element_value := r.2 } : CompleteRow)))).length =
        (p.2.arrays.map List.length).sum := by
      intro p
      rw [List.length_flatMap]
      have : List.map
          (List.length ∘ fun q => (q.2.enum).map (fun r =>
            ({ zdd_id := p.1
               thesis_number := thesisNumber p.1
               magic_number := p.2.magic_number
               array_index := q.1
               array_length := q.2.length
               array_elements := renderArray q.2
               array_signature_sorted := renderArray (sortInts q.2)
               element_position := r.1
               element_value := r.2 } : CompleteRow))) p.2.arrays.enum =
          List.map (List.length ∘ Prod.snd) p.2.arrays.enum := by
        simp [Function.comp]
      rw [this, ← List.map_map, List.enum_map_snd]
    have hperm : (sortByKey zdds).Perm zdds := List.perm_insertionSort _ zdds
    calc (List.map _ (sortByKey zdds)).sum
        = (List.map (fun p : Nat × ZDDStructure => (p.2.arrays.map List.length).sum)
            (sortByKey zdds)).sum := by
          congr 1
          exact List.map_congr_left (fun p _ => hinner p)
      _ = (List.map (fun p : Nat × ZDDStructure => (p.2.arrays.map List.length).sum)
            zdds).sum := (hperm.map _).sum_eq
  · refine ⟨summaryRowsPure zdds, summaryRows_eq zdds, ?_⟩
    unfold summaryRowsPure
    rw [List.length_flatMap]
    have hperm : (sortByKey zdds).Perm zdds := List.perm_insertionSort _ zdds
    calc (List.map _ (sortByKey zdds)).sum
        = (List.map (fun p : Nat × ZDDStructure => p.2.arrays.length) (sortByKey zdds)).sum := by
          congr 1
          exact List.map_congr_left (fun p _ => by simp [Function.comp])
      _ = (List.map (fun p : Nat × ZDDStructure => p.2.arrays.length) zdds).sum :=
          (hperm.map _).sum_eq

/-- A concrete batch index used to witness the frame property of
`save_batch`. -/
def idxExample : BatchIndex :=
  { total_batches := 2
    total_theses := 9
    batches :=
      [ { batch_number := 1, thesis_ids := [4, 5]
          status := [("evaluator_1", "pending"), ("evaluator_2", "pending")] }
      , { batch_number := 2, thesis_ids := [6]
          status := [("evaluator_1", "pending")] } ] }

/-- C10: `save_batch` modifies the batch index only at the entry for the
saved batch number — that entry's status for the given evaluator becomes
`completed` while its other fields, its other evaluators' statuses, every
other batch's entry and the index totals are unchanged. -/
theorem save_batch_frame (idx : BatchIndex) (n : Nat) (ev : String)
    (hnd : (idx.batches.map BatchEntry.batch_number).Nodup) :
    (save_batch_index idx n ev).total_batches = idx.total_batches ∧
    (save_batch_index idx n ev).total_theses = idx.total_theses ∧
    (save_batch_index idx n ev).batches.length = idx.batches.length ∧
    (∀ (i : Nat) (b : BatchEntry), idx.batches[i]? = some b →
      (save_batch_index idx n ev).batches[i]? =
        some (if b.batch_number = n then
          { b with status := setStatus b.status ev "completed" } else b)) ∧
    (∀ st, lookupKey (setStatus st ev "completed") ev = some "completed") ∧
    (∀ st k, k ≠ ev → lookupKey (setStatus st ev "completed") k = lookupKey st k) := by
  refine ⟨rfl, rfl, ?_, ?_, ?_, ?_⟩
  · show (updateFirstMatch idx.batches n ev).length = idx.batches.length
    induction idx.batches with
    | nil => rfl
    | cons b rest ih =>
      by_cases h : b.batch_number = n <;> simp [updateFirstMatch, h, ih]
  · exact fun i b h => updateFirstMatch_get n ev idx.batches hnd i b h
  · exact fun st => setStatus_lookup_self st ev "completed"
  · exact fun st k hk => setStatus_lookup_other st ev "completed" k hk

/-- Witness for C10: saving batch 1 for evaluator 1 in a concrete index
updates exactly that entry's evaluator-1 status and leaves batch 2
untouched. -/
theorem save_batch_frame_witness :
    (idxExample.batches.map BatchEntry.batch_number).Nodup ∧
    (save_batch_index idxExample 1 "evaluator_1").batches[0]? =
      some { batch_number := 1, thesis_ids := [4, 5]
             status := [("evaluator_1", "completed"), ("evaluator_2", "pending")] } ∧
    (save_batch_index idxExample 1 "evaluator_1").batches[1]? =
      some { batch_number := 2, thesis_ids := [6]
             status := [("evaluator_1", "pending")] } := by
  have hnd : (idxExample.batches.map BatchEntry.batch_number).Nodup := by decide
  have h := save_batch_frame idxExample 1 "evaluator_1" hnd
  refine ⟨hnd, ?_, ?_⟩
  · have h0 := h.2.2.2.1 0
      { batch_number := 1, thesis_ids := [4, 5]
        status := [("evaluator_1", "pending"), ("evaluator_2", "pending")] } (by decide)
    rw [h0]
    decide
  · have h1 := h.2.2.2.1 1
      { batch_number := 2, thesis_ids := [6]
        status := [("evaluator_1", "pending")] } (by decide)
    rw [h1]
    decide

/-- The claim that a nonexistent input file is fatal also for multi-file
conversion is false at this concrete input: with one existing file and a
missing one, `convert_multiple_binary_files` succeeds (the missing file is
skipped with a warning), the process exits 0, and the output holds the
existing file's arrays — a partial result. -/
theorem multi_file_missing_not_fatal :
    mainExitMultiple ⟨[("a.bin".toList, ⟨1, [[2]]⟩)]⟩
      ["missing.bin".toList, "a.bin".toList] = 0 ∧
    convert_multiple_binary_files ⟨[("a.bin".toList, ⟨1, [[2]]⟩)]⟩
      ["missing.bin".toList, "a.bin".toList] =
      Except.ok (zddBlock 1 "a.bin".toList ⟨1, [[2]]⟩) := by
  constructor
  · decide
  · rfl

/-- C4 amended: a missing input is fatal for single-file conversion — the
command raises `FileNotFoundError` and exits 1 with no output — while
multi-file conversion skips missing inputs with a warning and succeeds on
any non-empty path list; only an empty path list is fatal there. -/
theorem missing_input_fatal_single_only (fs : FileSys) (p : List Char)
    (paths : List (List Char)) (hmiss : lookupKey fs.files p = none)
    (hne : paths ≠ []) :
    convert_binary_to_text fs p =
      Except.error ("Binary ZDD file not found: ".toList ++ p) ∧
    mainExitSingle fs p = 1 ∧
    (∃ out, convert_multiple_binary_files fs paths = Except.ok out) ∧
    mainExitMultiple fs paths = 0 ∧
    convert_multiple_binary_files fs [] =
      Except.error "No binary ZDD files provided".toList := by
  refine ⟨?_, ?_, ?_, ?_, ?_⟩
  · simp [convert_binary_to_text, hmiss]
  · simp [mainExitSingle, convert_binary_to_text, hmiss]
  · exact ⟨(paths.enum).foldl (fun acc q =>
      match lookupKey fs.files q.2 with
      | none => acc
      | some st => acc ++ zddBlock q.1 q.2 st) [],
      by simp [convert_multiple_binary_files, hne]⟩
  · simp [mainExitMultiple, convert_multiple_binary_files, hne]
  · rfl

/-- Witness for the amended C4 at a concrete file system and path list. -/
theorem missing_input_fatal_single_only_witness :
    lookupKey (FileSys.mk [("a.bin".toList, ⟨1, [[2]]⟩)]).files "missing.bin".toList = none ∧
    (["missing.bin".toList, "a.bin".toList] : List (List Char)) ≠ [] ∧
    (convert_binary_to_text ⟨[("a.bin".toList, ⟨1, [[2]]⟩)]⟩ "missing.bin".toList =
      Except.error ("Binary ZDD file not found: ".toList ++ "missing.bin".toList) ∧
    mainExitSingle ⟨[("a.bin".toList, ⟨1, [[2]]⟩)]⟩ "missing.bin".toList = 1 ∧
    (∃ out, convert_multiple_binary_files ⟨[("a.bin".toList, ⟨1, [[2]]⟩)]⟩
      ["missing.bin".toList, "a.bin".toList] = Except.ok out) ∧
    mainExitMultiple ⟨[("a.bin".toList, ⟨1, [[2]]⟩)]⟩
      ["missing.bin".toList, "a.bin".toList] = 0 ∧
    convert_multiple_binary_files ⟨[("a.bin".toList, ⟨1, [[2]]⟩)]⟩ [] =
      Except.error "No binary ZDD files provided".toList) :=
  ⟨by decide, by decide,
    missing_input_fatal_single_only ⟨[("a.bin".toList, ⟨1, [[2]]⟩)]⟩
      "missing.bin".toList ["missing.bin".toList, "a.bin".toList]
      (by decide) (by decide)⟩

theorem digitVal_digitChar (d : Nat) (h : d < 10) : digitVal (digitChar d) = d := by
  interval_cases d <;> decide

theorem isDigitChar_digitChar (d : Nat) (h : d < 10) : isDigitChar (digitChar d) = true := by
  interval_cases d <;> decide

theorem natToCharsAux_adequate :
    ∀ (n fuel1 fuel2 : Nat), n < fuel1 → n < fuel2 →
      natToCharsAux fuel1 n = natToCharsAux fuel2 n := by
  intro n
  induction n using Nat.strong_induction_on with
  | _ n ih =>
    intro fuel1 fuel2 h1 h2
    match fuel1, fuel2 with
    | f1 + 1, f2 + 1 =>
      by_cases hn : n < 10
      · simp [natToCharsAux, hn]
      · have hdiv : n / 10 < n := Nat.div_lt_self (by omega) (by omega)
        simp only [natToCharsAux, hn, if_false]
        rw [ih (n / 10) hdiv f1 f2 (by omega) (by omega)]

theorem natToChars_eq (n : Nat) :
    natToChars n =
      if n < 10 then [digitChar n]
      else natToChars (n / 10) ++ [digitChar (n % 10)] := by
  by_cases hn : n < 10
  · simp [natToChars, natToCharsAux, hn]
  · have hdiv : n / 10 < n := Nat.div_lt_self (by omega) (by omega)
    have h1 : natToChars n = natToCharsAux n (n / 10) ++ [digitChar (n % 10)] := by
      simp [natToChars, natToCharsAux, hn]
    rw [h1, if_neg hn, natToChars]
    rw [natToCharsAux_adequate (n / 10) n (n / 10 + 1) hdiv (by omega)]

theorem natToChars_ne_nil (n : Nat) : natToChars n ≠ [] := by
  rw [natToChars_eq]
  by_cases hn : n < 10 <;> simp [hn]

theorem natToChars_all_digits (n : Nat) : (natToChars n).all isDigitChar = true := by
  induction n using Nat.strong_induction_on with
  | _ n ih =>
    rw [natToChars_eq]
    by_cases hn : n < 10
    · simp [hn, isDigitChar_digitChar n hn]
    · have hdiv : n / 10 < n := Nat.div_lt_self (by omega) (by omega)
      simp [hn, List.all_append, ih (n / 10) hdiv,
        isDigitChar_digitChar (n % 10) (Nat.mod_lt n (by omega))]

theorem charsToNat_append (xs : List Char) (c : Char) :
    charsToNat (xs ++ [c]) = charsToNat xs * 10 + digitVal c := by
  simp [charsToNat, List.foldl_append]

theorem charsToNat_natToChars (n : Nat) : charsToNat (natToChars n) = n := by
  induction n using Nat.strong_induction_on with
  | _ n ih =>
    rw [natToChars_eq]
    by_cases hn : n < 10
    · simp [hn, charsToNat, digitVal_digitChar n hn]
    · have hdiv : n / 10 < n := Nat.div_lt_self (by omega) (by omega)
      simp [hn, charsToNat_append, ih (n / 10) hdiv,
        digitVal_digitChar (n % 10) (Nat.mod_lt n (by omega))]
      omega

theorem pyIntOfChars_digits (s : List Char) (hne : s ≠ [])
    (hd : s.all isDigitChar = true) :
    pyIntOfChars s = some ((charsToNat s : Int)) := by
  match s with
  | [] => exact absurd rfl hne
  | c :: rest =>
    simp only [List.all_cons, Bool.and_eq_true] at hd
    have hc : isDigitChar c = true := hd.1
    have hcm : ¬ c = '-' := by
      intro hcc
      subst hcc
      exact absurd hc (by decide)
    have hcp : ¬ c = '+' := by
      intro hcc
      subst hcc
      exact absurd hc (by decide)
    simp [pyIntOfChars, hcm, hcp, hc, hd.2]

theorem pyInt_intToChars (i : Int) : pyIntOfChars (intToChars i) = some i := by
  by_cases hneg : i < 0
  · have h1 : intToChars i = '-' :: natToChars i.natAbs := by simp [intToChars, hneg]
    rw [h1]
    simp only [pyIntOfChars, if_pos rfl]
    rw [if_pos (And.intro (natToChars_ne_nil i.natAbs)
      (by rw [List.all_eq_true]; intro c hc;
          have := natToChars_all_digits i.natAbs;
          rw [List.all_eq_true] at this; exact this c hc))]
    rw [charsToNat_natToChars]
    simp only [ite_true]
    congr 1
    omega
  · have h1 : intToChars i = natToChars i.toNat := by simp [intToChars, hneg]
    rw [h1, pyIntOfChars_digits _ (natToChars_ne_nil i.toNat) (natToChars_all_digits i.toNat),
      charsToNat_natToChars]
    congr 1
    omega

theorem mem_intToChars (i : Int) (c : Char) (h : c ∈ intToChars i) :
    c = '-' ∨ isDigitChar c = true := by
  by_cases hneg : i < 0
  · simp [intToChars, hneg] at h
    rcases h with h | h
    · exact Or.inl h
    · exact Or.inr (by
        have := natToChars_all_digits i.natAbs
        rw [List.all_eq_true] at this
        exact this c h)
  · simp [intToChars, hneg] at h
    exact Or.inr (by
      have := natToChars_all_digits i.toNat
      rw [List.all_eq_true] at this
      exact this c h)

theorem digit_toNat_range (c : Char) (h : isDigitChar c = true) :
    48 ≤ c.toNat ∧ c.toNat ≤ 57 := by
  simpa [isDigitChar] using h

theorem mem_intToChars_not_special (i : Int) (c : Char) (h : c ∈ intToChars i) :
    c ≠ '[' ∧ c ≠ ']' ∧ c ≠ ',' ∧ c ≠ '\n' ∧ isPySpace c = false := by
  rcases mem_intToChars i c h with hc | hc
  · subst hc
    refine ⟨by decide, by decide, by decide, by decide, by decide⟩
  · have hr := digit_toNat_range c hc
    refine ⟨?_, ?_, ?_, ?_, ?_⟩
    · intro he; subst he; exact absurd hc (by decide)
    · intro he; subst he; exact absurd hc (by decide)
    · intro he; subst he; exact absurd hc (by decide)
    · intro he; subst he; exact absurd hc (by decide)
    · by_contra hb
      rw [Bool.not_eq_false] at hb
      simp only [isPySpace, Bool.or_eq_true, decide_eq_true_eq] at hb
      rcases hb with ((((h1 | h1) | h1) | h1) | h1) | h1 <;>
        (subst h1; exact absurd hc (by decide))

theorem dropWhile_eq_self_of {p : Char → Bool} (s : List Char)
    (h : ∀ c ∈ s, p c = false) : s.dropWhile p = s := by
  match s with
  | [] => rfl
  | c :: rest => simp [List.dropWhile_cons, h c (by simp)]

theorem pyStrip_eq_self (s : List Char) (h : ∀ c ∈ s, isPySpace c = false) :
    pyStrip s = s := by
  unfold pyStrip
  rw [dropWhile_eq_self_of s h, dropWhile_eq_self_of s.reverse (by
    intro c hc
    exact h c (List.mem_reverse.mp hc)), List.reverse_reverse]

theorem pyStrip_intToChars (i : Int) : pyStrip (intToChars i) = intToChars i :=
  pyStrip_eq_self _ (fun c hc => (mem_intToChars_not_special i c hc).2.2.2.2)

theorem splitOnChar_no_sep (sep : Char) :
    ∀ (p : List Char), sep ∉ p → splitOnChar sep p = [p] := by
  intro p
  induction p with
  | nil => intro _; rfl
  | cons c rest ih =>
    intro h
    have hc : ¬ c = sep := fun he => h (by simp [he])
    have hrest : sep ∉ rest := fun hm => h (by simp [hm])
    simp [splitOnChar, hc, ih hrest]

theorem splitOnChar_append (sep : Char) :
    ∀ (p rest : List Char), sep ∉ p →
      splitOnChar sep (p ++ sep :: rest) = p :: splitOnChar sep rest := by
  intro p
  induction p with
  | nil => intro rest _; simp [splitOnChar]
  | cons c t ih =>
    intro rest h
    have hc : ¬ c = sep := fun he => h (by simp [he])
    have ht : sep ∉ t := fun hm => h (by simp [hm])
    simp only [List.cons_append, splitOnChar, hc, if_false, List.append_eq]
    rw [ih rest ht]

theorem mem_pyJoin (sep : List Char) :
    ∀ (parts : List (List Char)) (c : Char), c ∈ pyJoin sep parts →
      c ∈ sep ∨ ∃ p ∈ parts, c ∈ p := by
  intro parts
  induction parts with
  | nil => intro c hc; simp [pyJoin] at hc
  | cons p ps ih =>
    intro c hc
    match ps with
    | [] =>
      simp only [pyJoin] at hc
      exact Or.inr ⟨p, by simp, hc⟩
    | q :: ps2 =>
      simp only [pyJoin, List.append_assoc, List.mem_append] at hc
      rcases hc with h1 | h1 | h1
      · exact Or.inr ⟨p, by simp, h1⟩
      · exact Or.inl h1
      · rcases ih c h1 with h2 | ⟨r, hr, hcr⟩
        · exact Or.inl h2
        · exact Or.inr ⟨r, by simp [hr], hcr⟩

theorem splitOnChar_pyJoin (sep : Char) :
    ∀ (parts : List (List Char)), parts ≠ [] → (∀ p ∈ parts, sep ∉ p) →
      splitOnChar sep (pyJoin [sep] parts) = parts := by
  intro parts
  induction parts with
  | nil => intro h _; exact absurd rfl h
  | cons p ps ih =>
    intro _ h
    match ps with
    | [] => exact splitOnChar_no_sep sep p (h p (by simp))
    | q :: ps2 =>
      have hstep : pyJoin [sep] (p :: q :: ps2) = p ++ sep :: pyJoin [sep] (q :: ps2) := by
        simp [pyJoin]
      rw [hstep, splitOnChar_append sep p _ (h p (by simp)),
        ih (by simp) (fun r hr => h r (by simp [hr]))]

theorem stripSet_wrap (cs : List Char) (wl wr : Char) (body : List Char) (c d : Char)
    (t t2 : List Char) (hhead : body = c :: t) (hlast : body = t2 ++ [d])
    (hwl : wl ∈ cs) (hwr : wr ∈ cs) (hc : c ∉ cs) (hd : d ∉ cs) :
    stripSet cs (wl :: body ++ [wr]) = body := by
  unfold stripSet
  rw [List.cons_append, List.dropWhile_cons, if_pos (by simpa using hwl)]
  have hstep1 : List.dropWhile (fun x => decide (x ∈ cs)) (body ++ [wr]) = body ++ [wr] := by
    rw [hhead, List.cons_append, List.dropWhile_cons, if_neg (by simpa using hc)]
  rw [hstep1, List.reverse_append]
  simp only [List.reverse_cons, List.reverse_nil, List.nil_append, List.singleton_append]
  rw [List.dropWhile_cons, if_pos (by simpa using hwr)]
  have hstep2 : List.dropWhile (fun x => decide (x ∈ cs)) body.reverse = body.reverse := by
    rw [hlast, List.reverse_append]
    simp only [List.reverse_cons, List.reverse_nil, List.nil_append, List.singleton_append]
    rw [List.dropWhile_cons, if_neg (by simpa using hd)]
  rw [hstep2, List.reverse_reverse]

theorem natToChars_last (n : Nat) :
    ∃ t c, natToChars n = t ++ [c] ∧ isDigitChar c = true := by
  rw [natToChars_eq]
  by_cases hn : n < 10
  · exact ⟨[], digitChar n, by simp [hn], isDigitChar_digitChar n hn⟩
  · exact ⟨natToChars (n / 10), digitChar (n % 10), by simp [hn],
      isDigitChar_digitChar (n % 10) (Nat.mod_lt n (by omega))⟩

theorem intToChars_head (i : Int) :
    ∃ c t, intToChars i = c :: t ∧ (c = '-' ∨ isDigitChar c = true) := by
  by_cases hneg : i < 0
  · exact ⟨'-', natToChars i.natAbs, by simp [intToChars, hneg], Or.inl rfl⟩
  · obtain ⟨c, t, hct⟩ := List.exists_cons_of_ne_nil (natToChars_ne_nil i.toNat)
    refine ⟨c, t, by simp [intToChars, hneg, hct], Or.inr ?_⟩
    have := natToChars_all_digits i.toNat
    rw [List.all_eq_true] at this
    exact this c (by simp [hct])

theorem intToChars_last (i : Int) :
    ∃ t c, intToChars i = t ++ [c] ∧ isDigitChar c = true := by
  by_cases hneg : i < 0
  · obtain ⟨t, c, htc, hdig⟩ := natToChars_last i.natAbs
    exact ⟨'-' :: t, c, by simp [intToChars, hneg, htc], hdig⟩
  · obtain ⟨t, c, htc, hdig⟩ := natToChars_last i.toNat
    exact ⟨t, c, by simp [intToChars, hneg, htc], hdig⟩

theorem pyJoin_head (sep : List Char) (P : Char → Prop) :
    ∀ (parts : List (List Char)), parts ≠ [] →
      (∀ p ∈ parts, ∃ c t, p = c :: t ∧ P c) →
      ∃ c t, pyJoin sep parts = c :: t ∧ P c := by
  intro parts hne h
  match parts with
  | [p] =>
    obtain ⟨c, t, hct, hP⟩ := h p (by simp)
    exact ⟨c, t, by simp [pyJoin, hct], hP⟩
  | p :: q :: ps =>
    obtain ⟨c, t, hct, hP⟩ := h p (by simp)
    exact ⟨c, t ++ sep ++ pyJoin sep (q :: ps), by simp [pyJoin, hct], hP⟩

theorem pyJoin_last (sep : List Char) (P : Char → Prop) :
    ∀ (parts : List (List Char)), parts ≠ [] →
      (∀ p ∈ parts, ∃ t c, p = t ++ [c] ∧ P c) →
      ∃ t c, pyJoin sep parts = t ++ [c] ∧ P c := by
  intro parts
  induction parts with
  | nil => intro hne _; exact absurd rfl hne
  | cons p ps ih =>
    intro _ h
    match ps with
    | [] =>
      obtain ⟨t, c, htc, hP⟩ := h p (by simp)
      exact ⟨t, c, by simp [pyJoin, htc], hP⟩
    | q :: ps2 =>
      obtain ⟨t, c, htc, hP⟩ := ih (by simp) (fun r hr => h r (by simp [hr]))
      exact ⟨p ++ sep ++ t, c, by simp [pyJoin, htc], hP⟩

theorem mapM_render (l : List Int) :
    (l.map intToChars).mapM (fun s => pyIntOfChars (pyStrip s)) = some l := by
  induction l with
  | nil => rfl
  | cons x xs ih =>
    rw [List.map_cons, List.mapM_cons, pyStrip_intToChars, pyInt_intToChars, ih]
    rfl

theorem parse_assignment_renderArray (a : List Int) :
    parse_assignment (renderArray a) = some a := by
  match a with
  | [] => decide
  | x :: xs =>
    have hparts : ∀ p ∈ (x :: xs).map intToChars, ∃ i : Int, p = intToChars i := by
      intro p hp
      rw [List.mem_map] at hp
      obtain ⟨i, _, hip⟩ := hp
      exact ⟨i, hip.symm⟩
    obtain ⟨c, t, hct, hcP⟩ := pyJoin_head [','] (fun c => c = '-' ∨ isDigitChar c = true)
      ((x :: xs).map intToChars) (by simp)
      (fun p hp => by
        obtain ⟨i, hi⟩ := hparts p hp
        obtain ⟨c, t, h1, h2⟩ := intToChars_head i
        exact ⟨c, t, hi ▸ h1, h2⟩)
    obtain ⟨t2, d, htd, hdP⟩ := pyJoin_last [','] (fun c => isDigitChar c = true)
      ((x :: xs).map intToChars) (by simp)
      (fun p hp => by
        obtain ⟨i, hi⟩ := hparts p hp
        obtain ⟨t2, d, h1, h2⟩ := intToChars_last i
        exact ⟨t2, d, hi ▸ h1, h2⟩)
    have hcnb : c ∉ (['[', ']'] : List Char) := by
      rcases hcP with h1 | h1
      · subst h1; decide
      · intro hm
        rcases List.mem_pair.mp hm with h2 | h2 <;> (subst h2; exact absurd h1 (by decide))
    have hdnb : d ∉ (['[', ']'] : List Char) := by
      intro hm
      rcases List.mem_pair.mp hm with h2 | h2 <;> (subst h2; exact absurd hdP (by decide))
    have hwrap : stripSet ['[', ']'] (renderArray (x :: xs)) =
        pyJoin [','] ((x :: xs).map intToChars) := by
      show stripSet ['[', ']'] ('[' :: pyJoin [','] ((x :: xs).map intToChars) ++ [']']) = _
      exact stripSet_wrap ['[', ']'] '[' ']' _ c d t t2 hct htd (by decide) (by decide) hcnb hdnb
    have hne : pyJoin [','] ((x :: xs).map intToChars) ≠ [] := by
      rw [hct]; simp
    unfold parse_assignment
    simp only [hwrap, hne, if_false]
    rw [splitOnChar_pyJoin ',' ((x :: xs).map intToChars) (by simp)
      (fun p hp hcm => by
        obtain ⟨i, hi⟩ := hparts p hp
        subst hi
        exact absurd rfl (mem_intToChars_not_special i ',' hcm).2.2.1)]
    exact mapM_render (x :: xs)

theorem write_content_foldl (arrays : List (List Int)) :
    ∀ acc : List Char,
      arrays.foldl (fun acc array => acc ++ renderArray array ++ ['\n']) acc =
        acc ++ (arrays.map (fun a => renderArray a ++ ['\n'])).flatten := by
  induction arrays with
  | nil => intro acc; simp
  | cons a rest ih =>
    intro acc
    simp only [List.foldl_cons, List.map_cons, List.flatten_cons]
    rw [ih (acc ++ renderArray a ++ ['\n'])]
    simp [List.append_assoc]

theorem write_content_eq (arrays : List (List Int)) :
    writeArraysToTextContent arrays =
      (arrays.map (fun a => renderArray a ++ ['\n'])).flatten := by
  unfold writeArraysToTextContent
  rw [write_content_foldl arrays []]
  rfl

theorem newline_not_mem_renderArray (a : List Int) : '\n' ∉ renderArray a := by
  intro h
  unfold renderArray at h
  rcases List.mem_cons.mp h with h1 | h1
  · exact absurd h1 (by decide)
  · rcases List.mem_append.mp h1 with h2 | h2
    · rcases mem_pyJoin [','] (a.map intToChars) '\n' h2 with h3 | ⟨p, hp, h3⟩
      · exact absurd h3 (by decide)
      · rw [List.mem_map] at hp
        obtain ⟨i, _, hip⟩ := hp
        subst hip
        exact absurd rfl (mem_intToChars_not_special i '\n' h3).2.2.2.1
    · exact absurd (List.mem_singleton.mp h2) (by decide)

theorem splitOnChar_flatten_lines :
    ∀ (lines : List (List Char)), (∀ l ∈ lines, '\n' ∉ l) →
      splitOnChar '\n' ((lines.map (fun l => l ++ ['\n'])).flatten) = lines ++ [[]] := by
  intro lines
  induction lines with
  | nil => intro _; rfl
  | cons l ls ih =>
    intro h
    simp only [List.map_cons, List.flatten_cons, List.append_assoc, List.singleton_append]
    rw [splitOnChar_append '\n' l _ (h l (by simp)), ih (fun r hr => h r (by simp [hr]))]
    rfl

theorem splitLines_write (arrays : List (List Int)) :
    splitLines (writeArraysToTextContent arrays) = arrays.map renderArray := by
  rw [write_content_eq]
  unfold splitLines
  have hmm : (arrays.map (fun a => renderArray a ++ ['\n'])).flatten =
      ((arrays.map renderArray).map (fun l => l ++ ['\n'])).flatten := by
    rw [List.map_map]
    rfl
  rw [hmm, splitOnChar_flatten_lines (arrays.map renderArray) (by
    intro l hl
    rw [List.mem_map] at hl
    obtain ⟨a, _, ha⟩ := hl
    subst ha
    exact newline_not_mem_renderArray a)]
  simp [List.getLast?_concat, List.dropLast_concat]

/-- C5: converting a single structure writes exactly one line per array —
the i-th line is the i-th array rendered as its elements comma-joined
inside square brackets, in decoded order, with no other lines. -/
theorem single_structure_text_lines (arrays : List (List Int)) :
    splitLines (writeArraysToTextContent arrays) = arrays.map renderArray ∧
    (splitLines (writeArraysToTextContent arrays)).length = arrays.length ∧
    ∀ (i : Nat), (splitLines (writeArraysToTextContent arrays))[i]? =
      (arrays[i]?).map renderArray := by
  refine ⟨splitLines_write arrays, by rw [splitLines_write]; simp, ?_⟩
  intro i
  rw [splitLines_write, List.getElem?_map]

/-- C1: writing any list of integer arrays with the line-per-array encoding
and re-parsing every resulting line with `parse_assignment` yields the same
sequence of arrays, empty arrays included. -/
theorem write_parse_roundtrip (arrays : List (List Int)) :
    (splitLines (writeArraysToTextContent arrays)).map parse_assignment =
      arrays.map some := by
  rw [splitLines_write, List.map_map]
  exact List.map_congr_left (fun a _ => parse_assignment_renderArray a)

theorem nodup_key_eq {α β : Type} [DecidableEq α] :
    ∀ (l : List (α × β)), (l.map Prod.fst).Nodup →
      ∀ (k : α) (b1 b2 : β), (k, b1) ∈ l → (k, b2) ∈ l → b1 = b2 := by
  intro l
  induction l with
  | nil => intro _ k b1 b2 h1 _; simp at h1
  | cons e rest ih =>
    intro hnd k b1 b2 h1 h2
    simp only [List.map_cons, List.nodup_cons] at hnd
    rcases List.mem_cons.mp h1 with he1 | he1 <;> rcases List.mem_cons.mp h2 with he2 | he2
    · rw [← he1] at he2; exact (Prod.mk.injEq _ _ _ _).mp he2.symm |>.2
    · exfalso
      apply hnd.1
      rw [show e.1 = k from congrArg Prod.fst he1.symm]
      exact List.mem_map_of_mem Prod.fst he2 
    · exfalso
      apply hnd.1
      rw [show e.1 = k from congrArg Prod.fst he2.symm]
      exact List.mem_map_of_mem Prod.fst he1
    · exact ih hnd.2 k b1 b2 he1 he2

/-- The claim that an empty array appears as rows of every CSV output is
false at this concrete input: a structure holding exactly one empty array
yields a `[]` line in the text encoding but zero data rows in the
per-element CSV — `generate_complete_csv` writes one row per element and an
empty array has none. -/
theorem empty_array_complete_csv_dropped :
    splitLines (writeArraysToTextContent (ZDDStructure.mk 42 [[]]).arrays) = [['[', ']']] ∧
    completeRows [(1, ⟨42, [[]]⟩)] = [] := by
  constructor
  · decide
  · decide

/-- C2 amended: an empty array is preserved by the text encoding (a `[]`
line at its index) and by the per-array summary CSV (one row with
`array_length = 0`), but the per-element complete CSV contains no row at
all for it, since that export writes one row per array element. -/
theorem empty_array_preservation (zdds : List (Nat × ZDDStructure))
    (zid : Nat) (st : ZDDStructure) (i : Nat)
    (hnd : (zdds.map Prod.fst).Nodup) (hmem : (zid, st) ∈ zdds)
    (hi : st.arrays[i]? = some []) :
    (splitLines (writeArraysToTextContent st.arrays))[i]? = some ['[', ']'] ∧
    (∃ rows, summaryRows zdds = Except.ok rows ∧ ∃ r ∈ rows,
      r.zdd_id = zid ∧ r.array_index = i ∧ r.array_length = 0) ∧
    (∀ r ∈ completeRows zdds, ¬(r.zdd_id = zid ∧ r.array_index = i)) := by
  refine ⟨?_, ?_, ?_⟩
  · rw [splitLines_write, List.getElem?_map, hi]
    rfl
  · refine ⟨summaryRowsPure zdds, summaryRows_eq zdds, ?_⟩
    refine ⟨summaryRowPure zid st.magic_number (i, []), ?_, rfl, rfl, rfl⟩
    unfold summaryRowsPure
    rw [List.mem_flatMap]
    refine ⟨(zid, st), ?_, ?_⟩
    · exact ((List.perm_insertionSort _ zdds).mem_iff).mpr hmem
    · exact List.mem_map_of_mem _ (List.mk_mem_enum_iff_getElem?.mpr hi)
  · intro r hr hzi
    unfold completeRows at hr
    rw [List.mem_flatMap] at hr
    obtain ⟨p, hp, hr2⟩ := hr
    rw [List.mem_flatMap] at hr2
    obtain ⟨q, hq, hr3⟩ := hr2
    rw [List.mem_map] at hr3
    obtain ⟨e, he, hre⟩ := hr3
    have hpz : p.1 = zid := by rw [← hzi.1, ← hre]
    have hqi : q.1 = i := by rw [← hzi.2, ← hre]
    have hpm : p ∈ zdds := ((List.perm_insertionSort _ zdds).mem_iff).mp hp
    have hps : p.2 = st := by
      have : (zid, p.2) ∈ zdds := by
        rw [← hpz]; exact hpm
      exact nodup_key_eq zdds hnd zid p.2 st this hmem
    have hq2 : q.2 = [] := by
      have h1 : p.2.arrays[q.1]? = some q.2 := List.mk_mem_enum_iff_getElem?.mp hq
      rw [hps, hqi, hi] at h1
      exact (Option.some_inj.mp h1).symm
    rw [hq2] at he
    simp at he

/-- Witness for the amended C2 at a concrete one-structure collection whose
only array is empty. -/
theorem empty_array_preservation_witness :
    (([(1, ⟨42, [[]]⟩)] : List (Nat × ZDDStructure)).map Prod.fst).Nodup ∧
    ((1 : Nat), (ZDDStructure.mk 42 [[]])) ∈ ([(1, ⟨42, [[]]⟩)] : List (Nat × ZDDStructure)) ∧
    (ZDDStructure.mk 42 [[]]).arrays[0]? = some [] ∧
    ((splitLines (writeArraysToTextContent (ZDDStructure.mk 42 [[]]).arrays))[0]? =
        some ['[', ']'] ∧
      (∃ rows, summaryRows [(1, ⟨42, [[]]⟩)] = Except.ok rows ∧ ∃ r ∈ rows,
        r.zdd_id = 1 ∧ r.array_index = 0 ∧ r.array_length = 0) ∧
      (∀ r ∈ completeRows [(1, ⟨42, [[]]⟩)], ¬(r.zdd_id = 1 ∧ r.array_index = 0))) :=
  ⟨by decide, by decide, by decide,
    empty_array_preservation [(1, ⟨42, [[]]⟩)] 1 ⟨42, [[]]⟩ 0
      (by decide) (by decide) (by decide)⟩

theorem addOcc_keys (m : List (List Int × List (Nat × Nat))) (k : List Int)
    (v : Nat × Nat) :
    (addOcc m k v).map Prod.fst =
      if k ∈ m.map Prod.fst then m.map Prod.fst else m.map Prod.fst ++ [k] := by
  induction m with
  | nil => simp [addOcc]
  | cons e rest ih =>
    by_cases he : e.1 = k
    · simp [addOcc, he]
    · simp only [addOcc, he, if_false, List.map_cons, ih]
      by_cases hk : k ∈ rest.map Prod.fst
      · simp [hk, Ne.symm he]
      · simp [hk, Ne.symm he]

theorem mem_keys_addOcc (m : List (List Int × List (Nat × Nat))) (k k2 : List Int)
    (v : Nat × Nat) :
    (k2 ∈ (addOcc m k v).map Prod.fst ↔ k2 ∈ m.map Prod.fst ∨ k2 = k) := by
  rw [addOcc_keys]
  by_cases hk : k ∈ m.map Prod.fst
  · simp only [hk, if_true]
    constructor
    · exact fun h => Or.inl h
    · rintro (h | h)
      · exact h
      · rw [h]; exact hk
  · simp [hk]

theorem occTotal_addOcc (m : List (List Int × List (Nat × Nat))) (k : List Int)
    (v : Nat × Nat) :
    ((addOcc m k v).map (fun e => e.2.length)).sum =
      (m.map (fun e => e.2.length)).sum + 1 := by
  induction m with
  | nil => simp [addOcc]
  | cons e rest ih =>
    by_cases he : e.1 = k
    · simp [addOcc, he]
      omega
    · simp [addOcc, he, ih]
      omega

theorem patternFold_inner_total (zid : Nat) :
    ∀ (l : List (Nat × List Int)) (m : List (List Int × List (Nat × Nat))),
      ((l.foldl (fun m2 q => addOcc m2 (sortInts q.2) (zid, q.1)) m).map
        (fun e => e.2.length)).sum = (m.map (fun e => e.2.length)).sum + l.length := by
  intro l
  induction l with
  | nil => intro m; simp
  | cons q rest ih =>
    intro m
    simp only [List.foldl_cons, List.length_cons]
    rw [ih (addOcc m (sortInts q.2) (zid, q.1)), occTotal_addOcc]
    omega

theorem patternOccurrences_total_aux :
    ∀ (zdds : List (Nat × ZDDStructure)) (m : List (List Int × List (Nat × Nat))),
      ((zdds.foldl (fun m p => (p.2.arrays.enum).foldl
          (fun m2 q => addOcc m2 (sortInts q.2) (p.1, q.1)) m) m).map
        (fun e => e.2.length)).sum =
      (m.map (fun e => e.2.length)).sum + (zdds.map (fun p => p.2.arrays.length)).sum := by
  intro zdds
  induction zdds with
  | nil => intro m; simp
  | cons p rest ih =>
    intro m
    simp only [List.foldl_cons, List.map_cons, List.sum_cons]
    rw [ih, patternFold_inner_total]
    simp [List.enum_length]
    omega

theorem mem_keys_inner_fold (zid : Nat) :
    ∀ (l : List (Nat × List Int)) (m : List (List Int × List (Nat × Nat))) (k2 : List Int),
      (k2 ∈ (l.foldl (fun m2 q => addOcc m2 (sortInts q.2) (zid, q.1)) m).map Prod.fst ↔
        k2 ∈ m.map Prod.fst ∨ ∃ q ∈ l, k2 = sortInts q.2) := by
  intro l
  induction l with
  | nil => intro m k2; simp
  | cons q rest ih =>
    intro m k2
    simp only [List.foldl_cons]
    rw [ih, mem_keys_addOcc]
    constructor
    · rintro ((h | h) | h)
      · exact Or.inl h
      · exact Or.inr ⟨q, by simp, h⟩
      · obtain ⟨r, hr, hk⟩ := h
        exact Or.inr ⟨r, by simp [hr], hk⟩
    · rintro (h | ⟨r, hr, hk⟩)
      · exact Or.inl (Or.inl h)
      · rcases List.mem_cons.mp hr with h1 | h1
        · exact Or.inl (Or.inr (by rw [h1] at hk; exact hk))
        · exact Or.inr ⟨r, h1, hk⟩

theorem mem_keys_patternOccurrences (zdds : List (Nat × ZDDStructure)) (k2 : List Int) :
    (k2 ∈ (patternOccurrences zdds).map Prod.fst ↔
      ∃ p ∈ zdds, ∃ arr ∈ p.2.arrays, k2 = sortInts arr) := by
  have haux : ∀ (zs : List (Nat × ZDDStructure)) (m : List (List Int × List (Nat × Nat))),
      (k2 ∈ (zs.foldl (fun m p => (p.2.arrays.enum).foldl
          (fun m2 q => addOcc m2 (sortInts q.2) (p.1, q.1)) m) m).map Prod.fst ↔
        k2 ∈ m.map Prod.fst ∨ ∃ p ∈ zs, ∃ arr ∈ p.2.arrays, k2 = sortInts arr) := by
    intro zs
    induction zs with
    | nil => intro m; simp
    | cons p rest ih =>
      intro m
      simp only [List.foldl_cons]
      rw [ih, mem_keys_inner_fold]
      constructor
      · rintro ((h | h) | h)
        · exact Or.inl h
        · obtain ⟨q, hq, hk⟩ := h
          refine Or.inr ⟨p, by simp, q.2, ?_, hk⟩
          have : q.2 ∈ p.2.arrays.enum.map Prod.snd := List.mem_map_of_mem Prod.snd hq
          rwa [List.enum_map_snd] at this
        · obtain ⟨r, hr, harr⟩ := h
          exact Or.inr ⟨r, by simp [hr], harr⟩
      · rintro (h | ⟨r, hr, arr, harr, hk⟩)
        · exact Or.inl (Or.inl h)
        · rcases List.mem_cons.mp hr with h1 | h1
          · subst h1
            refine Or.inl (Or.inr ?_)
            obtain ⟨i, hi⟩ := List.getElem?_of_mem harr
            exact ⟨(i, arr), List.mk_mem_enum_iff_getElem?.mpr hi, hk⟩
          · exact Or.inr ⟨r, h1, arr, harr, hk⟩
  rw [patternOccurrences, haux]
  simp

/-- C3: the pattern-frequency table is keyed by the sorted tuple of each
array's elements — every key is sorted and is the sorted signature of some
loaded array, every loaded array's sorted signature occurs as a key — and
the frequency counts over all rows sum to the total number of arrays across
the collection. -/
theorem pattern_table_keys_and_total (zdds : List (Nat × ZDDStructure)) :
    ((patternRows zdds).map PatternRow.frequency_across_zdds).sum =
      (zdds.map (fun p => p.2.arrays.length)).sum ∧
    (∀ e ∈ patternOccurrences zdds, List.Sorted (· ≤ ·) e.1 ∧
      ∃ p ∈ zdds, ∃ arr ∈ p.2.arrays, e.1 = sortInts arr) ∧
    (∀ p ∈ zdds, ∀ arr ∈ p.2.arrays,
      ∃ e ∈ patternOccurrences zdds, e.1 = sortInts arr) := by
  refine ⟨?_, ?_, ?_⟩
  · unfold patternRows
    rw [List.map_map]
    have h1 : List.map (PatternRow.frequency_across_zdds ∘ patternRowOf)
        ((patternOccurrences zdds).insertionSort (fun a b => b.2.length ≤ a.2.length)) =
        List.map (fun e => e.2.length)
        ((patternOccurrences zdds).insertionSort (fun a b => b.2.length ≤ a.2.length)) := by
      exact List.map_congr_left (fun e _ => rfl)
    rw [h1,
      ((List.perm_insertionSort (fun a b => b.2.length ≤ a.2.length)
        (patternOccurrences zdds)).map (fun e => e.2.length)).sum_eq]
    have h2 := patternOccurrences_total_aux zdds []
    simpa [patternOccurrences] using h2
  · intro e he
    have hk : e.1 ∈ (patternOccurrences zdds).map Prod.fst :=
      List.mem_map_of_mem Prod.fst he
    rw [mem_keys_patternOccurrences] at hk
    obtain ⟨p, hp, arr, harr, hk2⟩ := hk
    refine ⟨?_, p, hp, arr, harr, hk2⟩
    rw [hk2]
    exact List.sorted_insertionSort (· ≤ ·) arr
  · intro p hp arr harr
    have hk : sortInts arr ∈ (patternOccurrences zdds).map Prod.fst := by
      rw [mem_keys_patternOccurrences]
      exact ⟨p, hp, arr, harr, rfl⟩
    rw [List.mem_map] at hk
    obtain ⟨e, he, hke⟩ := hk
    exact ⟨e, he, hke⟩

theorem lookupKey_mem {α β : Type} [DecidableEq α] :
    ∀ (l : List (α × β)) (k : α) (b : β), lookupKey l k = some b → k ∈ l.map Prod.fst := by
  intro l
  induction l with
  | nil => intro k b h; simp [lookupKey] at h
  | cons e rest ih =>
    intro k b h
    by_cases he : e.1 = k
    · simp [he]
    · simp only [lookupKey, he, if_false] at h
      simp [ih k b h]

theorem mem_lookupKey {α β : Type} [DecidableEq α] :
    ∀ (l : List (α × β)) (k : α), k ∈ l.map Prod.fst → ∃ b, lookupKey l k = some b := by
  intro l
  induction l with
  | nil => intro k h; simp at h
  | cons e rest ih =>
    intro k h
    by_cases he : e.1 = k
    · exact ⟨e.2, by simp [lookupKey, he]⟩
    · have h2 : k = e.1 ∨ k ∈ rest.map Prod.fst := by
        rw [List.map_cons, List.mem_cons] at h
        exact h
      rcases h2 with h1 | h1
      · exact absurd h1.symm he
      · obtain ⟨b, hb⟩ := ih k h1
        exact ⟨b, by simp [lookupKey, he, hb]⟩

theorem ratingPairAt_some_iff (e1 e2 : List (String × ClauseEval)) (cid : String)
    (r : String × String) :
    ratingPairAt e1 e2 cid = some r ↔
      ∃ c1 c2, lookupKey e1 cid = some c1 ∧ lookupKey e2 cid = some c2 ∧
        c1.rating ≠ "" ∧ c2.rating ≠ "" ∧ r = (c1.rating, c2.rating) := by
  unfold ratingPairAt
  cases h1 : lookupKey e1 cid with
  | none => simp [h1]
  | some c1 =>
    cases h2 : lookupKey e2 cid with
    | none => simp [h1, h2]
    | some c2 =>
      show (if c1.rating ≠ "" ∧ c2.rating ≠ "" then some (c1.rating, c2.rating)
        else none) = some r ↔ _
      by_cases hr : c1.rating ≠ "" ∧ c2.rating ≠ ""
      · rw [if_pos hr]
        constructor
        · intro h
          exact ⟨c1, c2, rfl, rfl, hr.1, hr.2, (Option.some_inj.mp h).symm⟩
        · rintro ⟨d1, d2, hd1, hd2, _, _, hre⟩
          have he1 : c1 = d1 := Option.some_inj.mp hd1
          have he2 : c2 = d2 := Option.some_inj.mp hd2
          rw [hre, he1, he2]
      · rw [if_neg hr]
        constructor
        · intro h; simp at h
        · rintro ⟨d1, d2, hd1, hd2, hne1, hne2, _⟩
          have he1 : c1 = d1 := Option.some_inj.mp hd1
          have he2 : c2 = d2 := Option.some_inj.mp hd2
          rw [he1, he2] at hr
          exact absurd ⟨hne1, hne2⟩ hr

theorem ratingPairAt_isSome_iff (e1 e2 : List (String × ClauseEval)) (cid : String) :
    (ratingPairAt e1 e2 cid).isSome = true ↔ commonlyRated e1 e2 cid := by
  constructor
  · intro h
    obtain ⟨r, hr⟩ := Option.isSome_iff_exists.mp h
    obtain ⟨c1, c2, h1, h2, hn1, hn2, _⟩ := (ratingPairAt_some_iff e1 e2 cid r).mp hr
    exact ⟨c1, c2, h1, h2, hn1, hn2⟩
  · rintro ⟨c1, c2, h1, h2, hn1, hn2⟩
    rw [Option.isSome_iff_exists]
    exact ⟨(c1.rating, c2.rating),
      (ratingPairAt_some_iff e1 e2 cid _).mpr ⟨c1, c2, h1, h2, hn1, hn2, rfl⟩⟩

theorem filterMap_fst_ratings (e1 e2 : List (String × ClauseEval)) :
    ∀ (l : List String),
      ((l.filterMap (ratingPairAt e1 e2)).map Prod.fst =
        (l.filter (fun cid => (ratingPairAt e1 e2 cid).isSome)).map (ratingOf e1)) ∧
      ((l.filterMap (ratingPairAt e1 e2)).map Prod.snd =
        (l.filter (fun cid => (ratingPairAt e1 e2 cid).isSome)).map (ratingOf e2)) := by
  intro l
  induction l with
  | nil => exact ⟨rfl, rfl⟩
  | cons cid rest ih =>
    cases hp : ratingPairAt e1 e2 cid with
    | none =>
      simp only [List.filterMap_cons, hp, List.filter_cons, Option.isSome_none,
        Bool.false_eq_true, if_false]
      exact ih
    | some r =>
      obtain ⟨c1, c2, h1, h2, _, _, hre⟩ := (ratingPairAt_some_iff e1 e2 cid r).mp hp
      have hr1 : r.1 = ratingOf e1 cid := by
        rw [hre]
        simp [ratingOf, h1]
      have hr2 : r.2 = ratingOf e2 cid := by
        rw [hre]
        simp [ratingOf, h2]
      simp only [List.filterMap_cons, hp, List.filter_cons, Option.isSome_some, if_true,
        List.map_cons, hr1, hr2]
      exact ⟨by rw [ih.1], by rw [ih.2]⟩

theorem mem_commonDedup_iff (e1 e2 : List (String × ClauseEval)) (cid : String) :
    cid ∈ ((e1.map Prod.fst).filter (fun k => (e2.map Prod.fst).contains k)).dedup ↔
      cid ∈ e1.map Prod.fst ∧ cid ∈ e2.map Prod.fst := by
  rw [List.mem_dedup, List.mem_filter]
  constructor
  · rintro ⟨h1, h2⟩
    exact ⟨h1, List.elem_iff.mp h2⟩
  · rintro ⟨h1, h2⟩
    exact ⟨h1, List.elem_iff.mpr h2⟩

theorem commonlyRated_mem_keys (e1 e2 : List (String × ClauseEval)) (cid : String)
    (h : commonlyRated e1 e2 cid) :
    cid ∈ e1.map Prod.fst ∧ cid ∈ e2.map Prod.fst := by
  obtain ⟨c1, c2, h1, h2, _, _⟩ := h
  exact ⟨lookupKey_mem e1 cid c1 h1, lookupKey_mem e2 cid c2 h2⟩

/-- C8: `compute_cohens_kappa` returns `(None, [], [])` exactly when no
clause id is present in both evaluations with a non-empty rating from each;
otherwise it returns the two equal-length rating lists of exactly the
commonly rated clause ids, taken in sorted clause-id order. -/
theorem cohens_kappa_common_rated (e1 e2 : List (String × ClauseEval)) :
    (compute_cohens_kappa e1 e2 = none ↔ ¬ ∃ cid, commonlyRated e1 e2 cid) ∧
    (∀ l1 l2, compute_cohens_kappa e1 e2 = some (l1, l2) →
      l1.length = l2.length ∧
      ∃ ids : List String,
        List.Pairwise (· ≤ ·) ids ∧
        (∀ cid, cid ∈ ids ↔ commonlyRated e1 e2 cid) ∧
        l1 = ids.map (ratingOf e1) ∧ l2 = ids.map (ratingOf e2)) := by
  have hscmem : ∀ cid,
      cid ∈ (((e1.map Prod.fst).filter
          (fun k => (e2.map Prod.fst).contains k)).dedup.insertionSort (· ≤ ·)) ↔
        cid ∈ e1.map Prod.fst ∧ cid ∈ e2.map Prod.fst := by
    intro cid
    rw [(List.perm_insertionSort (· ≤ ·) _).mem_iff, mem_commonDedup_iff]
  have hcr_mem_sc : ∀ cid, commonlyRated e1 e2 cid →
      cid ∈ (((e1.map Prod.fst).filter
          (fun k => (e2.map Prod.fst).contains k)).dedup.insertionSort (· ≤ ·)) := by
    intro cid h
    exact (hscmem cid).mpr (commonlyRated_mem_keys e1 e2 cid h)
  constructor
  · constructor
    · intro hnone ⟨cid, hcr⟩
      unfold compute_cohens_kappa at hnone
      by_cases hcom : ((e1.map Prod.fst).filter
          (fun k => (e2.map Prod.fst).contains k)).dedup = []
      · have := hcr_mem_sc cid hcr
        rw [hcom] at this
        simp at this
      · rw [if_neg hcom] at hnone
        by_cases hp : (((e1.map Prod.fst).filter
            (fun k => (e2.map Prod.fst).contains k)).dedup.insertionSort
              (· ≤ ·)).filterMap (ratingPairAt e1 e2) = []
        · rw [List.filterMap_eq_nil_iff] at hp
          have hsome := (ratingPairAt_isSome_iff e1 e2 cid).mpr hcr
          rw [hp cid (hcr_mem_sc cid hcr)] at hsome
          simp at hsome
        · rw [if_neg hp] at hnone
          exact Option.noConfusion hnone
    · intro hno
      unfold compute_cohens_kappa
      by_cases hcom : ((e1.map Prod.fst).filter
          (fun k => (e2.map Prod.fst).contains k)).dedup = []
      · rw [if_pos hcom]
      · have hp : (((e1.map Prod.fst).filter
            (fun k => (e2.map Prod.fst).contains k)).dedup.insertionSort
              (· ≤ ·)).filterMap (ratingPairAt e1 e2) = [] := by
          rw [List.filterMap_eq_nil_iff]
          intro cid _
          cases hq : ratingPairAt e1 e2 cid with
          | none => rfl
          | some r =>
            exfalso
            apply hno
            refine ⟨cid, ?_⟩
            rw [← ratingPairAt_isSome_iff e1 e2 cid, hq]
            rfl
        rw [if_neg hcom, if_pos hp]
  · intro l1 l2 hsome
    unfold compute_cohens_kappa at hsome
    by_cases hcom : ((e1.map Prod.fst).filter
        (fun k => (e2.map Prod.fst).contains k)).dedup = []
    · rw [if_pos hcom] at hsome
      exact Option.noConfusion hsome
    · rw [if_neg hcom] at hsome
      by_cases hp : (((e1.map Prod.fst).filter
          (fun k => (e2.map Prod.fst).contains k)).dedup.insertionSort
            (· ≤ ·)).filterMap (ratingPairAt e1 e2) = []
      · rw [if_pos hp] at hsome
        exact Option.noConfusion hsome
      · rw [if_neg hp, Option.some_inj] at hsome
        have hl1 : l1 = _ := congrArg Prod.fst hsome.symm
        have hl2 : l2 = _ := congrArg Prod.snd hsome.symm
        have hmaps := filterMap_fst_ratings e1 e2
          (((e1.map Prod.fst).filter
            (fun k => (e2.map Prod.fst).contains k)).dedup.insertionSort (· ≤ ·))
        refine ⟨?_, ?_⟩
        · rw [hl1, hl2]
          simp
        · refine ⟨(((e1.map Prod.fst).filter
            (fun k => (e2.map Prod.fst).contains k)).dedup.insertionSort
              (· ≤ ·)).filter (fun cid => (ratingPairAt e1 e2 cid).isSome), ?_, ?_, ?_, ?_⟩
          · exact List.Pairwise.filter _
              (List.sorted_insertionSort (· ≤ ·) _)
          · intro cid
            rw [List.mem_filter]
            constructor
            · rintro ⟨_, h2⟩
              exact (ratingPairAt_isSome_iff e1 e2 cid).mp h2
            · intro hcr
              exact ⟨hcr_mem_sc cid hcr, (ratingPairAt_isSome_iff e1 e2 cid).mpr hcr⟩
          · rw [hl1]
            exact hmaps.1
          · rw [hl2]
            exact hmaps.2

end RuleConvergence
